import Mathlib

/-!
# serialize: the benchmark runners of `main.go`

A shallow embedding of the four benchmark runners of `main.go`
(`JsoniterStandardTest`, `JsonitterConfigFastestTest`, `StandardTest`,
`AvroTest`), of their statistics record `Stats` and of the finalisation that
computes the operations per second.

Modelling conventions.

* `time.Duration` and `int64` are `Int` (nanoseconds for durations).  Go's
  `/` on `int64` truncates toward zero: `Int.tdiv`.  A Go integer division by
  zero is a run-time panic: `Result.panic`.  No quantity of a run comes near
  `2^63`, so wrap-around is not modelled.
* `time.Now()` is a stream of readings `now : Nat → Int` (nanoseconds); the
  state of a run holds the number of readings taken so far (`tick`), and
  `e.Sub(s)` is `e - s`.
* The encoders are external libraries.  A call returns what the Go call
  returns: the bytes and the `error` (`none` for `nil`).  A decode call gets the
  bytes and the present contents of the record it decodes into, and returns the
  contents it leaves there.
* `log.Fatalln` ends the process: `Result.fatal` with the printed line.
* The shared collection `data` is a slice of pointers to distinct records; it
  is modelled by the list of the contents of these records.
-/

namespace Serialize

/-! ## Durations -/

/-- A `time.Duration`: a number of nanoseconds. -/
abbrev Duration := Int

/-- The constant `time.Nanosecond`. -/
def Nanosecond : Duration := 1

/-- The constant `time.Second`. -/
def Second : Duration := 1000000000

/-- The constant `time.Minute`. -/
def Minute : Duration := 60 * Second

/-- The package variable `timer` of `main.go` line 51, as initialised there. -/
def timer : Duration := Minute * 2

/-- The expression `int64(d.Seconds())`: `Duration.Seconds` is the float
`d / Second + (d % Second) / 1e9`, and the conversion to `int64` drops its
fraction, which leaves the whole seconds of `d`, truncated toward zero (the
float sum is short of the next integer for every duration below `2^23`
seconds, far above what a run accumulates). -/
def wholeSeconds (d : Duration) : Int := Int.tdiv d Second

/-! ## Data model -/

/-- The struct `Stats` (`main.go` lines 15-27). -/
structure Stats where
  System : String
  Records : Int
  DataSize : Int
  MarshalAvg : Duration
  MarshalAll : Duration
  MarshalOpS : Int
  UnMarshalAvg : Duration
  UnMarshalAll : Duration
  UnMarshalOpS : Int
  deriving DecidableEq, Repr

/-- The struct `Data` (`main.go` lines 30-47).  `Date` is the instant in
nanoseconds, `Amt1` and `Amt2` are the bit patterns of the `float64` values,
the maps are association lists. -/
structure Data where
  ID : Int
  Date : Int
  NameA : String
  NameB : String
  NameC : String
  Count1 : Int
  Count2 : Int
  Count3 : Int
  Amt1 : Nat
  Amt2 : Nat
  Flag : Bool
  StrArray : List String
  MapStr : List (String × String)
  MapInt : List (Int × Int)
  XXX_unrecognized : List UInt8
  deriving DecidableEq, Repr

/-- How a run of a runner ends: it returns (`ok`), it ends in `log.Fatalln`
(`fatal`, with the line printed) or in a run-time panic (`panic`). -/
inductive Result (α : Type) where
  | ok (a : α)
  | fatal (msg : String)
  | panic (msg : String)
  deriving DecidableEq, Repr

/-- The text `log.Fatalln` formats for its operands, as `fmt.Sprintln` does: the
operands separated by blanks, and a newline.  The logger writes it after its
time stamp and ends the process with status 1. -/
def Fatalln (args : List String) : String := " ".intercalate args ++ "\n"

/-- The message of Go's run-time panic on an integer division by zero. -/
def divideError : String := "runtime error: integer divide by zero"

/-- A JSON API (`jsont`, `jsonf`, `encoding/json`) on records: `Marshal`
returns the bytes and the error; `Unmarshal b` into a record returns the
contents it leaves in the record and the error. -/
structure Codec where
  Marshal : Data → List UInt8 × Option String
  Unmarshal : List UInt8 → Data → Data × Option String

/-- The `*goavro.Codec` returned by `goavro.NewCodec`, on native values of
type `N`: `BinaryFromNative(nil, bmap)` returns the bytes and the error,
`NativeFromBinary(b)` the error (its two other results are dropped). -/
structure AvroCodec (N : Type) where
  BinaryFromNative : N → List UInt8 × Option String
  NativeFromBinary : List UInt8 → Option String

/-- What a run depends on besides the collection: the clock, the package
variables `timer`, `jsont` and `jsonf`, package `encoding/json`, `jsont.Unmarshal`
into the map `bmap`, the result of `goavro.NewCodec` on the schema of `AvroTest`
and the empty map `bmap` starts from. -/
structure Env (N : Type) where
  now : Nat → Int
  timer : Duration
  jsont : Codec
  jsonf : Codec
  json : Codec
  jsontUnmarshalMap : List UInt8 → N → N × Option String
  NewCodec : Except String (AvroCodec N)
  emptyMap : N

/-! ## The loop of a runner -/

/-- What the four runners differ in.  `convert` is the preparation before the
timed encode (`AvroTest` lines 171-172; nothing in the JSON runners), `encode`
the timed and checked encode call, `decode` the timed and checked decode call
with the contents it leaves in the record, `encodeFatal` and `decodeFatal` the
operands of `log.Fatalln` for an error.  The state of type `σ` is what the
preparation keeps between records (`bmap` in `AvroTest`). -/
structure Backend (σ : Type) where
  System : String
  init : σ
  convert : Data → σ → σ
  encode : Data → σ → List UInt8 × Option String
  encodeFatal : String → List String
  decode : List UInt8 → Data → Data × Option String
  decodeFatal : String → List String

/-- One pass of the loop body that ran to its end: the range index, the record,
the bytes the encode returned, the bytes handed to the decode, and the two
measured durations `e.Sub(s)`. -/
structure Sample where
  i : Nat
  d : Data
  encoded : List UInt8
  decoded : List UInt8
  marshal : Duration
  unmarshal : Duration
  deriving DecidableEq, Repr

/-- The state of a runner inside its loop: its variables `c` and `stat`, and
what the embedding keeps beside them: the number of clock readings taken
(`tick`), the contents of the records visited so far, as the decode calls left
them (`records`), and the passes made so far (`samples`). -/
structure LoopState where
  tick : Nat
  c : Duration
  stat : Stats
  records : List Data
  samples : List Sample
  deriving DecidableEq, Repr

/-- The stop test `i == len(data) || time.Now().Sub(start) > timer` (lines 247,
197, 298, 349), with the number of clock readings after it: `||` reads the
clock only when its left operand is false. -/
def stopTest (now : Nat → Int) (budget : Duration) (start : Int) (len : Nat)
    (i tick : Nat) : Bool × Nat :=
  if i == len then (true, tick) else (decide (now tick - start > budget), tick + 1)

/-- The stop test without its index comparison:
`time.Now().Sub(start) > timer`. -/
def stopTestTimeOnly (now : Nat → Int) (budget : Duration) (start : Int) (_len : Nat)
    (_i tick : Nat) : Bool × Nat :=
  (decide (now tick - start > budget), tick + 1)

/-- The body of the loop `for i, d := range data` of a runner (lines 220-249,
168-199, 271-300, 322-351), for the stop test `stop`.  It returns the new
variables and whether `break` was taken. -/
def bodyWith {σ : Type} (stop : Nat → Nat → Bool × Nat) (now : Nat → Int) (B : Backend σ)
    (i : Nat) (d : Data) (s : LoopState × σ) : Result ((LoopState × σ) × Bool) :=
  let st := s.1
  let c := st.c + Nanosecond
  let loc := B.convert d s.2
  let s0 := now st.tick
  let enc := B.encode d loc
  match enc.2 with
  | some err => .fatal (Fatalln (B.encodeFatal err))
  | none =>
    let e0 := now (st.tick + 1)
    let dataSize := st.stat.DataSize + (enc.1.length : Int)
    let marshalAll := st.stat.MarshalAll + (e0 - s0)
    let marshalAvg := Int.tdiv marshalAll c
    let s1 := now (st.tick + 2)
    let dec := B.decode enc.1 d
    match dec.2 with
    | some err => .fatal (Fatalln (B.decodeFatal err))
    | none =>
      let e1 := now (st.tick + 3)
      let unMarshalAll := st.stat.UnMarshalAll + (e1 - s1)
      let unMarshalAvg := Int.tdiv unMarshalAll c
      let brk := stop i (st.tick + 4)
      .ok (({ tick := brk.2
              c := c
              stat := { st.stat with
                DataSize := dataSize
                MarshalAll := marshalAll
                MarshalAvg := marshalAvg
                UnMarshalAll := unMarshalAll
                UnMarshalAvg := unMarshalAvg }
              records := st.records ++ [dec.1]
              samples := st.samples ++
                [{ i := i, d := d, encoded := enc.1, decoded := enc.1,
                   marshal := e0 - s0, unmarshal := e1 - s1 }] }, loc), brk.1)

/-- The statement `for i, d := range data` over the records not yet visited:
the body runs for each record in turn, from index `i`, until it takes `break`,
ends the process, or the records are exhausted.  It returns the variables and
the records left unvisited. -/
def rangeLoop {S : Type} (body : Nat → Data → S → Result (S × Bool)) :
    Nat → List Data → S → Result (S × List Data)
  | _, [], s => .ok (s, [])
  | i, d :: rest, s =>
    match body i d s with
    | .ok (s', true) => .ok (s', rest)
    | .ok (s', false) => rangeLoop body (i + 1) rest s'
    | .fatal m => .fatal m
    | .panic m => .panic m

/-- The variables of a runner when it enters its loop: `start = time.Now()` has
been read, `c := time.Nanosecond`, `stat := Stats{System: ...}`. -/
def initState (system : String) : LoopState :=
  { tick := 1
    c := Nanosecond
    stat := { System := system, Records := 0, DataSize := 0, MarshalAvg := 0,
              MarshalAll := 0, MarshalOpS := 0, UnMarshalAvg := 0, UnMarshalAll := 0,
              UnMarshalOpS := 0 }
    records := []
    samples := [] }

/-- A runner up to the end of its loop, for the stop test `stop`: the variables
at the end of the loop, `records` being the contents of the whole collection
then. -/
def runnerLoopWith {N σ : Type}
    (stop : (Nat → Int) → Duration → Int → Nat → Nat → Nat → Bool × Nat)
    (env : Env N) (B : Backend σ) (data : List Data) : Result LoopState :=
  let start := env.now 0
  match rangeLoop (bodyWith (stop env.now env.timer start data.length) env.now B) 0 data
      (initState B.System, B.init) with
  | .ok (s, rest) => .ok { s.1 with records := s.1.records ++ rest }
  | .fatal m => .fatal m
  | .panic m => .panic m

/-- A runner up to the end of its loop, as written in `main.go`. -/
def runnerLoop {N σ : Type} (env : Env N) (B : Backend σ) (data : List Data) :
    Result LoopState :=
  runnerLoopWith stopTest env B data

/-- The three statements after the loop (lines 252-254, 201-203, 303-305,
354-356): `stat.Records = c.Nanoseconds()`, then the two divisions by the whole
seconds of the cumulative durations. -/
def finish (c : Duration) (stat : Stats) : Result Stats :=
  let stat1 := { stat with Records := c }
  if wholeSeconds stat1.MarshalAll = 0 then .panic divideError
  else
    let stat2 := { stat1 with
      MarshalOpS := Int.tdiv stat1.Records (wholeSeconds stat1.MarshalAll) }
    if wholeSeconds stat2.UnMarshalAll = 0 then .panic divideError
    else
      .ok { stat2 with
        UnMarshalOpS := Int.tdiv stat2.Records (wholeSeconds stat2.UnMarshalAll) }

/-- What a runner that returns has done: the `Stats` it handed to `PrintStats`
and the contents of the shared collection. -/
structure Report where
  stat : Stats
  data : List Data
  deriving DecidableEq, Repr

/-- The finalisation and the call `PrintStats(stat)` after a loop. -/
def finishLoop : Result LoopState → Result Report
  | .ok st =>
    match finish st.c st.stat with
    | .ok stat => .ok { stat := stat, data := st.records }
    | .fatal m => .fatal m
    | .panic m => .panic m
  | .fatal m => .fatal m
  | .panic m => .panic m

/-! ## The four runners -/

/-- The backend of a JSON runner: no preparation, `Marshal(d)` and
`Unmarshal(b, &d)` of the API, which decodes into the record `d` points to;
an error is fatal with `log.Fatalln("error marshal", stat.System, err)`, or
`"error unmarshal"`. -/
def jsonBackend (system : String) (codec : Codec) : Backend Unit :=
  { System := system
    init := ()
    convert := fun _ u => u
    encode := fun d _ => codec.Marshal d
    encodeFatal := fun err => ["error marshal", system, err]
    decode := fun b d => codec.Unmarshal b d
    decodeFatal := fun err => ["error unmarshal", system, err] }

/-- The backend of `AvroTest`: the preparation `b, _ = jsont.Marshal(d)`,
`jsont.Unmarshal(b, &bmap)` drops both errors and keeps `bmap` between records;
the encode is `codec.BinaryFromNative(nil, bmap)`, the decode
`codec.NativeFromBinary(b)`, which leaves the record alone. -/
def avroBackend {N : Type} (env : Env N) (codec : AvroCodec N) : Backend N :=
  { System := "avro binary"
    init := env.emptyMap
    convert := fun d bmap => (env.jsontUnmarshalMap (env.jsont.Marshal d).1 bmap).1
    encode := fun _ bmap => codec.BinaryFromNative bmap
    encodeFatal := fun err => ["binary_from_native error:", err]
    decode := fun b d => (d, codec.NativeFromBinary b)
    decodeFatal := fun err => ["native_from_binary error:", err] }

/-- The function `JsoniterStandardTest` (lines 207-256). -/
def JsoniterStandardTest {N : Type} (env : Env N) (data : List Data) : Result Report :=
  finishLoop (runnerLoop env (jsonBackend "jsoniter config with standard lib" env.jsont) data)

/-- The function `JsonitterConfigFastestTest` (lines 258-307). -/
def JsonitterConfigFastestTest {N : Type} (env : Env N) (data : List Data) : Result Report :=
  finishLoop (runnerLoop env (jsonBackend "jsoniter config fastest" env.jsonf) data)

/-- The function `StandardTest` (lines 309-358). -/
def StandardTest {N : Type} (env : Env N) (data : List Data) : Result Report :=
  finishLoop (runnerLoop env (jsonBackend "standard encoding/json" env.json) data)

/-- The loop of `AvroTest` with what precedes it: `goavro.NewCodec`, whose error
is fatal (lines 134-156). -/
def avroLoopWith {N : Type}
    (stop : (Nat → Int) → Duration → Int → Nat → Nat → Nat → Bool × Nat)
    (env : Env N) (data : List Data) : Result LoopState :=
  match env.NewCodec with
  | .error err => .fatal (Fatalln ["goavro newcodec error:", err])
  | .ok codec => runnerLoopWith stop env (avroBackend env codec) data

/-- The function `AvroTest` (lines 131-205). -/
def AvroTest {N : Type} (env : Env N) (data : List Data) : Result Report :=
  finishLoop (avroLoopWith stopTest env data)

/-- The four runners `main` calls. -/
inductive Runner where
  | JsoniterStandardTest
  | JsonitterConfigFastestTest
  | StandardTest
  | AvroTest
  deriving DecidableEq, Repr

/-- The runner `r` up to the end of its loop, for the stop test `stop`. -/
def loopWith {N : Type}
    (stop : (Nat → Int) → Duration → Int → Nat → Nat → Nat → Bool × Nat)
    (env : Env N) : Runner → List Data → Result LoopState
  | .JsoniterStandardTest, data =>
    runnerLoopWith stop env (jsonBackend "jsoniter config with standard lib" env.jsont) data
  | .JsonitterConfigFastestTest, data =>
    runnerLoopWith stop env (jsonBackend "jsoniter config fastest" env.jsonf) data
  | .StandardTest, data =>
    runnerLoopWith stop env (jsonBackend "standard encoding/json" env.json) data
  | .AvroTest, data => avroLoopWith stop env data

/-- The runner `r` up to the end of its loop. -/
def loopOf {N : Type} (env : Env N) (r : Runner) (data : List Data) : Result LoopState :=
  loopWith stopTest env r data

/-- A run of the runner `r` on the collection `data`. -/
def run {N : Type} (env : Env N) : Runner → List Data → Result Report
  | .JsoniterStandardTest, data => JsoniterStandardTest env data
  | .JsonitterConfigFastestTest, data => JsonitterConfigFastestTest env data
  | .StandardTest, data => StandardTest env data
  | .AvroTest, data => AvroTest env data

/-! ## What a run does at each record -/

/-- The state the preparation has reached when the encode of the record at
index `k` is called: `convert` applied for the records up to index `k`. -/
def locAt {σ : Type} (B : Backend σ) (data : List Data) (k : Nat) : σ :=
  (data.take (k + 1)).foldl (fun loc d => B.convert d loc) B.init

/-- The line `log.Fatalln` prints at the record of index `k` when the loop
reaches it: for an error of its encode call, or else of its decode call on the
bytes of the encode; `none` when both calls succeed. -/
def fatalAtB {σ : Type} (B : Backend σ) (data : List Data) (k : Nat) : Option String :=
  match data[k]? with
  | none => none
  | some d =>
    match (B.encode d (locAt B data k)).2 with
    | some err => some (Fatalln (B.encodeFatal err))
    | none =>
      match (B.decode (B.encode d (locAt B data k)).1 d).2 with
      | some err => some (Fatalln (B.decodeFatal err))
      | none => none

/-- The pass of the loop body for the record of index `k`, when every record up
to it is processed: the encode output, and the durations between the clock
readings around the two calls (five readings are taken for each record, after
the reading of `start`). -/
def sampleAtB {σ : Type} (now : Nat → Int) (B : Backend σ) (data : List Data) (k : Nat) :
    Option Sample :=
  data[k]?.map fun d =>
    { i := k
      d := d
      encoded := (B.encode d (locAt B data k)).1
      decoded := (B.encode d (locAt B data k)).1
      marshal := now (5 * k + 2) - now (5 * k + 1)
      unmarshal := now (5 * k + 4) - now (5 * k + 3) }

/-- The contents the decode call leaves in the record of index `k`. -/
def writtenAtB {σ : Type} (B : Backend σ) (data : List Data) (k : Nat) : Option Data :=
  data[k]?.map fun d => (B.decode (B.encode d (locAt B data k)).1 d).1

/-- The time elapsed since the runner started, as read in the stop test after
the `k`-th record (`k` from 1): the clock reading number `5 * k` minus
`start`, the reading number 0. -/
def elapsedAfter {N : Type} (env : Env N) (k : Nat) : Duration :=
  env.now (5 * k) - env.now 0

/-- Whether the time elapsed after the `k`-th record exceeds the budget. -/
def overAt {N : Type} (env : Env N) (k : Nat) : Bool :=
  decide (elapsedAfter env k > env.timer)

/-- The least `k` from 1 to `n` for which the time elapsed after the `k`-th
record exceeds the budget, and `n` when there is none: the minimum of `n` and of
the first record after which the budget is exceeded. -/
def stopCount {N : Type} (env : Env N) (n : Nat) : Nat :=
  match (List.range n).find? (fun j => overAt env (j + 1)) with
  | some j => j + 1
  | none => n

/-- The variables of a runner after `m` passes of its loop body, in terms of
the collection, the backend and the clock. -/
structure Core {σ : Type} (now : Nat → Int) (B : Backend σ) (data : List Data) (m : Nat)
    (s : LoopState × σ) : Prop where
  tick : s.1.tick = 5 * m + 1
  c : s.1.c = (m : Int) + 1
  loc : s.2 = (data.take m).foldl (fun loc d => B.convert d loc) B.init
  succ : ∀ k, k < m → fatalAtB B data k = none
  nsamples : s.1.samples.length = m
  samples : ∀ k, k < m → s.1.samples[k]? = sampleAtB now B data k
  nrecords : s.1.records.length = m
  records : ∀ k, k < m → s.1.records[k]? = writtenAtB B data k
  dataSize : s.1.stat.DataSize = (s.1.samples.map fun x => (x.encoded.length : Int)).sum
  marshalAll : s.1.stat.MarshalAll = (s.1.samples.map fun x => x.marshal).sum
  unMarshalAll : s.1.stat.UnMarshalAll = (s.1.samples.map fun x => x.unmarshal).sum
  marshalAvg : 0 < m → s.1.stat.MarshalAvg = Int.tdiv s.1.stat.MarshalAll s.1.c
  unMarshalAvg : 0 < m → s.1.stat.UnMarshalAvg = Int.tdiv s.1.stat.UnMarshalAll s.1.c
  system : s.1.stat.System = B.System

/-- What the loop of a runner ends in, in terms of the collection, the backend
and the clock: after `m` passes, `m` being the whole collection or the first
record after which the budget is exceeded; or in the fatal line of the first
record with a failing call, the budget not exceeded before it. -/
def LoopPost {N σ : Type} (env : Env N) (B : Backend σ) (data : List Data) :
    Result ((LoopState × σ) × List Data) → Prop
  | .ok (s, rest) => ∃ m, m ≤ data.length ∧ rest = data.drop m ∧ Core env.now B data m s ∧
      (∀ k, k + 1 < m → overAt env (k + 1) = false) ∧
      (m < data.length → 1 ≤ m ∧ overAt env m = true)
  | .fatal msg => ∃ k, k < data.length ∧
      (∀ j, j < k → fatalAtB B data j = none ∧ overAt env (j + 1) = false) ∧
      fatalAtB B data k = some msg
  | .panic _ => False

/-- What the loop of a runner ends in, the number of passes being `stopCount`:
the variables after that many passes, with the whole collection in `records`;
or the fatal line of the first record with a failing call, among the records
the loop reaches. -/
def RunnerPost {N σ : Type} (env : Env N) (B : Backend σ) (data : List Data) :
    Result LoopState → Prop
  | .ok st => ∃ s : LoopState × σ, Core env.now B data (stopCount env data.length) s ∧
      st = { s.1 with records := s.1.records ++ data.drop (stopCount env data.length) }
  | .fatal msg => ∃ k, k < stopCount env data.length ∧
      (∀ j, j < k → fatalAtB B data j = none) ∧ fatalAtB B data k = some msg
  | .panic _ => False

/-! ## The four runners, record by record -/

/-- The line `log.Fatalln` prints before the loop: in `AvroTest`, for an error of
`goavro.NewCodec`; the JSON runners have no such step. -/
def setupFatal {N : Type} (env : Env N) : Runner → Option String
  | .AvroTest =>
    match env.NewCodec with
    | .error err => some (Fatalln ["goavro newcodec error:", err])
    | .ok _ => none
  | _ => none

/-- The line `log.Fatalln` prints at the record of index `k` of the runner `r`
when its loop reaches it, `none` when its checked calls succeed there. -/
def fatalAt {N : Type} (env : Env N) : Runner → List Data → Nat → Option String
  | .JsoniterStandardTest, data, k =>
    fatalAtB (jsonBackend "jsoniter config with standard lib" env.jsont) data k
  | .JsonitterConfigFastestTest, data, k =>
    fatalAtB (jsonBackend "jsoniter config fastest" env.jsonf) data k
  | .StandardTest, data, k =>
    fatalAtB (jsonBackend "standard encoding/json" env.json) data k
  | .AvroTest, data, k =>
    match env.NewCodec with
    | .error _ => none
    | .ok codec => fatalAtB (avroBackend env codec) data k

/-- The pass of the loop body of the runner `r` for the record of index `k`. -/
def sampleAt {N : Type} (env : Env N) : Runner → List Data → Nat → Option Sample
  | .JsoniterStandardTest, data, k =>
    sampleAtB env.now (jsonBackend "jsoniter config with standard lib" env.jsont) data k
  | .JsonitterConfigFastestTest, data, k =>
    sampleAtB env.now (jsonBackend "jsoniter config fastest" env.jsonf) data k
  | .StandardTest, data, k =>
    sampleAtB env.now (jsonBackend "standard encoding/json" env.json) data k
  | .AvroTest, data, k =>
    match env.NewCodec with
    | .error _ => none
    | .ok codec => sampleAtB env.now (avroBackend env codec) data k

/-- The contents the decode call of the runner `r` leaves in the record of
index `k`. -/
def writtenAt {N : Type} (env : Env N) : Runner → List Data → Nat → Option Data
  | .JsoniterStandardTest, data, k =>
    writtenAtB (jsonBackend "jsoniter config with standard lib" env.jsont) data k
  | .JsonitterConfigFastestTest, data, k =>
    writtenAtB (jsonBackend "jsoniter config fastest" env.jsonf) data k
  | .StandardTest, data, k =>
    writtenAtB (jsonBackend "standard encoding/json" env.json) data k
  | .AvroTest, data, k =>
    match env.NewCodec with
    | .error _ => none
    | .ok codec => writtenAtB (avroBackend env codec) data k

/-- The decode call of the runner `r` fails whatever it is given. -/
def decodeAlwaysFails {N : Type} (env : Env N) : Runner → Prop
  | .JsoniterStandardTest => ∀ b d, (env.jsont.Unmarshal b d).2 ≠ none
  | .JsonitterConfigFastestTest => ∀ b d, (env.jsonf.Unmarshal b d).2 ≠ none
  | .StandardTest => ∀ b d, (env.json.Unmarshal b d).2 ≠ none
  | .AvroTest => ∀ codec, env.NewCodec = .ok codec → ∀ b, codec.NativeFromBinary b ≠ none

/-- The backend `B` is the one the runner `r` runs its loop with. -/
structure IsBackend {N σ : Type} (env : Env N) (r : Runner) (B : Backend σ) : Prop where
  setup : setupFatal env r = none
  loop : ∀ stop data, loopWith stop env r data = runnerLoopWith stop env B data
  fatal : ∀ data k, fatalAt env r data k = fatalAtB B data k
  sample : ∀ data k, sampleAt env r data k = sampleAtB env.now B data k
  written : ∀ data k, writtenAt env r data k = writtenAtB B data k
  avro : r = .AvroTest → ∀ data k, writtenAtB B data k = data[k]?
  decode : decodeAlwaysFails env r → ∀ b d, (B.decode b d).2 ≠ none

/-! ## Sample inputs -/

/-- A record with the identifier `id` and fixed other fields. -/
def record (id : Int) : Data :=
  { ID := id, Date := 0, NameA := "a", NameB := "b", NameC := "c", Count1 := 1, Count2 := 2,
    Count3 := 3, Amt1 := 0, Amt2 := 0, Flag := true, StrArray := ["x"], MapStr := [("k", "v")],
    MapInt := [(1, 2)], XXX_unrecognized := [] }

/-- A JSON API whose calls succeed: three bytes for every record, and a decode
that writes back what the record holds. -/
def okCodec : Codec :=
  { Marshal := fun _ => ([1, 2, 3], none)
    Unmarshal := fun _ d => (d, none) }

/-- An Avro codec whose calls succeed, on native values that count the
conversions made. -/
def okAvro : AvroCodec Nat :=
  { BinaryFromNative := fun _ => ([7, 7], none)
    NativeFromBinary := fun _ => none }

/-- An environment whose calls all succeed, with the budget of `main.go` and a
clock that advances by `step` between two readings. -/
def steadyEnv (step : Int) : Env Nat :=
  { now := fun t => step * t
    timer := timer
    jsont := okCodec
    jsonf := okCodec
    json := okCodec
    jsontUnmarshalMap := fun _ m => (m + 1, none)
    NewCodec := .ok okAvro
    emptyMap := 0 }

/-- A JSON API whose decode succeeds and leaves an empty `NameA` in the
record. -/
def clearingCodec : Codec :=
  { Marshal := fun _ => ([1, 2, 3], none)
    Unmarshal := fun _ d => ({ d with NameA := "" }, none) }

/-- The environment `steadyEnv Second` with `clearingCodec` for `jsont`. -/
def clearingEnv : Env Nat :=
  { steadyEnv Second with jsont := clearingCodec }

/-- The bit pattern of a `float64` NaN. -/
def nanBits : Nat := 0x7FF8000000000000

/-- A JSON API in miniature: `Marshal` fails on a record whose `Amt1` is a NaN,
as `encoding/json` does, and returns no bytes then; otherwise it returns one
byte, the identifier.  `Unmarshal` fails on no bytes, and otherwise writes back
what the record holds. -/
def miniCodec : Codec :=
  { Marshal := fun d =>
      if d.Amt1 = nanBits then ([], some "json: unsupported value: NaN")
      else ([UInt8.ofNat d.ID.toNat], none)
    Unmarshal := fun b d =>
      if b = [] then (d, some "unexpected end of JSON input") else (d, none) }

/-- An Avro codec in miniature, on a map that is empty (`none`) or holds the
fields of the record with some identifier: the encode fails on the empty map,
whose fields are missing, and the decode fails on no bytes. -/
def miniAvro : AvroCodec (Option Nat) :=
  { BinaryFromNative := fun m =>
      match m with
      | none => ([], some "cannot encode binary record: missing field")
      | some id => ([UInt8.ofNat id, 0], none)
    NativeFromBinary := fun b => if b = [] then some "short buffer" else none }

/-- An environment in miniature, with a clock that advances by a second at each
reading: `jsont.Unmarshal` into the map fails on no bytes and leaves the map as
it is, and otherwise stores the fields of the record in it. -/
def miniEnv : Env (Option Nat) :=
  { now := fun t => Second * t
    timer := timer
    jsont := miniCodec
    jsonf := miniCodec
    json := miniCodec
    jsontUnmarshalMap := fun b m =>
      match b with
      | [] => (m, some "unexpected end of JSON input")
      | x :: _ => (some x.toNat, none)
    NewCodec := .ok miniAvro
    emptyMap := none }

/-- Two records, the second with a NaN in `Amt1`. -/
def nanRecords : List Data := [record 1, { record 2 with Amt1 := nanBits }]

/-- Five records, with the identifiers 1 to 5. -/
def fiveRecords : List Data := [record 1, record 2, record 3, record 4, record 5]

/-- Three records, with the identifiers 1 to 3. -/
def threeRecords : List Data := [record 1, record 2, record 3]

/-- The `Stats` a JSON runner named `system` reports for `threeRecords` in the
environment `steadyEnv Second`. -/
def steadyStats (system : String) : Stats :=
  { System := system, Records := 4, DataSize := 9, MarshalAvg := 750000000,
    MarshalAll := 3000000000, MarshalOpS := 1, UnMarshalAvg := 750000000,
    UnMarshalAll := 3000000000, UnMarshalOpS := 1 }

/-- The `Stats` that `StandardTest` reports for `threeRecords` with a clock that
advances by half a second at each reading. -/
def halfSecondStats : Stats :=
  { System := "standard encoding/json", Records := 4, DataSize := 9, MarshalAvg := 375000000,
    MarshalAll := 1500000000, MarshalOpS := 4, UnMarshalAvg := 375000000,
    UnMarshalAll := 1500000000, UnMarshalOpS := 4 }

/-- The `Stats` that `AvroTest` reports for `threeRecords` in the environment
`steadyEnv Second`. -/
def steadyAvroStats : Stats :=
  { steadyStats "avro binary" with DataSize := 6 }

/-- The report of the runner `r` for `threeRecords` in the environment
`steadyEnv Second`. -/
def steadyReport : Runner → Report
  | .JsoniterStandardTest =>
    { stat := steadyStats "jsoniter config with standard lib", data := threeRecords }
  | .JsonitterConfigFastestTest =>
    { stat := steadyStats "jsoniter config fastest", data := threeRecords }
  | .StandardTest => { stat := steadyStats "standard encoding/json", data := threeRecords }
  | .AvroTest => { stat := steadyAvroStats, data := threeRecords }

/-! ## The loop statement -/

theorem rangeLoop_induct {S : Type} (body : Nat → Data → S → Result (S × Bool))
    (data : List Data) (Inv : Nat → S → Prop) (Post : Result (S × List Data) → Prop)
    (hstep : ∀ j (hj : j < data.length) s s', Inv j s →
      body j data[j] s = .ok (s', false) → Inv (j + 1) s')
    (hbrk : ∀ j (hj : j < data.length) s s', Inv j s →
      body j data[j] s = .ok (s', true) → Post (.ok (s', data.drop (j + 1))))
    (hfatal : ∀ j (hj : j < data.length) s m, Inv j s →
      body j data[j] s = .fatal m → Post (.fatal m))
    (hpanic : ∀ j (hj : j < data.length) s m, Inv j s →
      body j data[j] s = .panic m → Post (.panic m))
    (hend : ∀ s, Inv data.length s → Post (.ok (s, [])))
    (s0 : S) (h0 : Inv 0 s0) : Post (rangeLoop body 0 data s0) := by
  have key : ∀ (rest : List Data) (i : Nat) (s : S), rest = data.drop i → i ≤ data.length →
      Inv i s → Post (rangeLoop body i rest s) := by
    intro rest
    induction rest with
    | nil =>
      intro i s hrest hi hinv
      have hlen : i = data.length := by
        have := congrArg List.length hrest
        simp at this
        omega
      subst hlen
      simpa [rangeLoop] using hend s hinv
    | cons d rest ih =>
      intro i s hrest hi hinv
      have hlt : i < data.length := by
        have := congrArg List.length hrest
        simp at this
        omega
      rw [List.drop_eq_getElem_cons hlt] at hrest
      obtain ⟨hd, hr⟩ := List.cons.inj hrest
      subst hd
      unfold rangeLoop
      cases hb : body i data[i] s with
      | ok p =>
        obtain ⟨s', b⟩ := p
        cases b with
        | true =>
          simp only []
          rw [hr]
          exact hbrk i hlt s s' hinv hb
        | false =>
          simp only []
          exact ih (i + 1) s' hr hlt (hstep i hlt s s' hinv hb)
      | fatal m => exact hfatal i hlt s m hinv hb
      | panic m => exact hpanic i hlt s m hinv hb
  exact key data 0 s0 (by simp) (Nat.zero_le _) h0

/-! ## The loop body -/

theorem bodyWith_cases {σ : Type} (stop : Nat → Nat → Bool × Nat) (now : Nat → Int)
    (B : Backend σ) (i : Nat) (d : Data) (s : LoopState × σ) :
    (∃ err, (B.encode d (B.convert d s.2)).2 = some err ∧
      bodyWith stop now B i d s = .fatal (Fatalln (B.encodeFatal err))) ∨
    ((B.encode d (B.convert d s.2)).2 = none ∧
      ∃ err, (B.decode (B.encode d (B.convert d s.2)).1 d).2 = some err ∧
      bodyWith stop now B i d s = .fatal (Fatalln (B.decodeFatal err))) ∨
    ((B.encode d (B.convert d s.2)).2 = none ∧
      (B.decode (B.encode d (B.convert d s.2)).1 d).2 = none ∧
      ∃ st', bodyWith stop now B i d s =
          .ok ((st', B.convert d s.2), (stop i (s.1.tick + 4)).1) ∧
        st'.tick = (stop i (s.1.tick + 4)).2 ∧
        st'.c = s.1.c + 1 ∧
        st'.records = s.1.records ++ [(B.decode (B.encode d (B.convert d s.2)).1 d).1] ∧
        st'.samples = s.1.samples ++
          [{ i := i, d := d, encoded := (B.encode d (B.convert d s.2)).1,
             decoded := (B.encode d (B.convert d s.2)).1,
             marshal := now (s.1.tick + 1) - now s.1.tick,
             unmarshal := now (s.1.tick + 3) - now (s.1.tick + 2) }] ∧
        st'.stat.System = s.1.stat.System ∧
        st'.stat.Records = s.1.stat.Records ∧
        st'.stat.MarshalOpS = s.1.stat.MarshalOpS ∧
        st'.stat.UnMarshalOpS = s.1.stat.UnMarshalOpS ∧
        st'.stat.DataSize =
          s.1.stat.DataSize + ((B.encode d (B.convert d s.2)).1.length : Int) ∧
        st'.stat.MarshalAll = s.1.stat.MarshalAll + (now (s.1.tick + 1) - now s.1.tick) ∧
        st'.stat.UnMarshalAll =
          s.1.stat.UnMarshalAll + (now (s.1.tick + 3) - now (s.1.tick + 2)) ∧
        st'.stat.MarshalAvg = Int.tdiv st'.stat.MarshalAll st'.c ∧
        st'.stat.UnMarshalAvg = Int.tdiv st'.stat.UnMarshalAll st'.c) := by
  cases he : (B.encode d (B.convert d s.2)).2 with
  | some err =>
    left
    exact ⟨err, rfl, by simp [bodyWith, he]⟩
  | none =>
    right
    cases hd : (B.decode (B.encode d (B.convert d s.2)).1 d).2 with
    | some err =>
      left
      exact ⟨rfl, err, rfl, by simp [bodyWith, he, hd]⟩
    | none =>
      right
      refine ⟨rfl, rfl, ?_⟩
      simp [bodyWith, he, hd, Nanosecond]

theorem bodyWith_ne_panic {σ : Type} (stop : Nat → Nat → Bool × Nat) (now : Nat → Int)
    (B : Backend σ) (i : Nat) (d : Data) (s : LoopState × σ) (m : String) :
    bodyWith stop now B i d s ≠ .panic m := by
  rcases bodyWith_cases stop now B i d s with ⟨err, _, h⟩ | ⟨_, err, _, h⟩ | ⟨_, _, st', h, _⟩ <;>
    simp [h]

/-! ## The invariant of the loop -/

theorem convert_eq_locAt {σ : Type} (B : Backend σ) (data : List Data) (j : Nat)
    (hj : j < data.length) :
    B.convert data[j] ((data.take j).foldl (fun loc d => B.convert d loc) B.init) =
      locAt B data j := by
  unfold locAt
  rw [List.take_succ, List.getElem?_eq_getElem hj, List.foldl_append]
  rfl

theorem stopTest_of_lt (now : Nat → Int) (budget : Duration) (start : Int) (len i tick : Nat)
    (h : i < len) :
    stopTest now budget start len i tick = (decide (now tick - start > budget), tick + 1) := by
  have : i ≠ len := Nat.ne_of_lt h
  simp [stopTest, this]

theorem getElem?_snoc_of_le {α : Type} (l : List α) (a : α) (f : Nat → Option α) (m : Nat)
    (hlen : l.length = m) (hl : ∀ k, k < m → l[k]? = f k) (ha : f m = some a) :
    ∀ k, k < m + 1 → (l ++ [a])[k]? = f k := by
  intro k hk
  by_cases hkm : k < m
  · rw [List.getElem?_append_left (by omega)]
    exact hl k hkm
  · have : k = m := by omega
    subst this
    rw [← hlen, List.getElem?_concat_length, hlen, ha]

theorem core_init {σ : Type} (now : Nat → Int) (B : Backend σ) (data : List Data) :
    Core now B data 0 (initState B.System, B.init) := by
  constructor <;> simp [initState, Nanosecond]

theorem core_step {σ : Type} (now : Nat → Int) (budget : Duration) (B : Backend σ)
    (data : List Data) (j : Nat) (hj : j < data.length) (s s' : LoopState × σ) (b : Bool)
    (hc : Core now B data j s)
    (hb : bodyWith (stopTest now budget (now 0) data.length) now B j data[j] s = .ok (s', b)) :
    Core now B data (j + 1) s' ∧ b = decide (now (5 * (j + 1)) - now 0 > budget) := by
  have hloc := convert_eq_locAt B data j hj
  rw [← hc.loc] at hloc
  rcases bodyWith_cases (stopTest now budget (now 0) data.length) now B j data[j] s with
    ⟨err, _, h⟩ | ⟨_, err, _, h⟩ | ⟨he, hd, st', h, htick, hcc, hrec, hsam, hsys, _, _, _,
      hsize, hmall, huall, hmavg, huavg⟩
  · rw [h] at hb
    cases hb
  · rw [h] at hb
    cases hb
  · rw [h] at hb
    injection hb with hb
    injection hb with hs hbrk
    subst hs
    rw [stopTest_of_lt _ _ _ _ _ _ hj] at htick hbrk
    rw [hloc] at he hd hrec hsam hsize
    have hfat : fatalAtB B data j = none := by
      simp [fatalAtB, List.getElem?_eq_getElem hj, he, hd]
    refine ⟨?_, ?_⟩
    · constructor
      · simp only [htick, hc.tick]
        omega
      · simp only [hcc, hc.c]
        push_cast
        ring
      · simp only [hloc]
        simp [locAt]
      · intro k hk
        by_cases hkj : k < j
        · exact hc.succ k hkj
        · have : k = j := by omega
          subst this
          exact hfat
      · simp [hsam, hc.nsamples]
      · simp only [hsam]
        refine getElem?_snoc_of_le _ _ _ j hc.nsamples hc.samples ?_
        simp only [sampleAtB, List.getElem?_eq_getElem hj, Option.map_some', hc.tick]
      · simp [hrec, hc.nrecords]
      · simp only [hrec]
        refine getElem?_snoc_of_le _ _ _ j hc.nrecords hc.records ?_
        simp [writtenAtB, List.getElem?_eq_getElem hj]
      · simp [hsize, hsam, hc.dataSize]
      · simp [hmall, hsam, hc.marshalAll]
      · simp [huall, hsam, hc.unMarshalAll]
      · intro _
        exact hmavg
      · intro _
        exact huavg
      · simp [hsys, hc.system]
    · rw [← hbrk, hc.tick]
      congr 3

theorem core_fatal {σ : Type} (stop : Nat → Nat → Bool × Nat) (now : Nat → Int) (B : Backend σ)
    (data : List Data) (j : Nat) (hj : j < data.length) (s : LoopState × σ) (m : String)
    (hc : Core now B data j s) (hb : bodyWith stop now B j data[j] s = .fatal m) :
    fatalAtB B data j = some m := by
  have hloc := convert_eq_locAt B data j hj
  rw [← hc.loc] at hloc
  rcases bodyWith_cases stop now B j data[j] s with
    ⟨err, he, h⟩ | ⟨he, err, hd, h⟩ | ⟨_, _, st', h, _⟩
  · rw [h] at hb
    injection hb with hb
    rw [hloc] at he
    simp [fatalAtB, List.getElem?_eq_getElem hj, he, hb]
  · rw [h] at hb
    injection hb with hb
    rw [hloc] at he hd
    simp [fatalAtB, List.getElem?_eq_getElem hj, he, hd, hb]
  · rw [h] at hb
    cases hb

/-- The loop of a runner ends as `LoopPost` says. -/
theorem rangeLoop_post {N σ : Type} (env : Env N) (B : Backend σ) (data : List Data) :
    LoopPost env B data
      (rangeLoop (bodyWith (stopTest env.now env.timer (env.now 0) data.length) env.now B) 0
        data (initState B.System, B.init)) := by
  refine rangeLoop_induct _ data
    (fun j s => Core env.now B data j s ∧ ∀ k, k < j → overAt env (k + 1) = false)
    (LoopPost env B data) ?_ ?_ ?_ ?_ ?_ _ ⟨core_init env.now B data, by intro k hk; omega⟩
  · rintro j hj s s' ⟨hc, hover⟩ hb
    obtain ⟨hc', hbrk⟩ := core_step env.now env.timer B data j hj s s' false hc hb
    refine ⟨hc', ?_⟩
    intro k hk
    by_cases hkj : k < j
    · exact hover k hkj
    · have : k = j := by omega
      subst this
      simpa [overAt, elapsedAfter] using hbrk.symm
  · rintro j hj s s' ⟨hc, hover⟩ hb
    obtain ⟨hc', hbrk⟩ := core_step env.now env.timer B data j hj s s' true hc hb
    refine ⟨j + 1, hj, rfl, hc', ?_, ?_⟩
    · intro k hk
      exact hover k (by omega)
    · intro _
      refine ⟨by omega, ?_⟩
      simpa [overAt, elapsedAfter] using hbrk.symm
  · rintro j hj s m ⟨hc, hover⟩ hb
    exact ⟨j, hj, fun k hk => ⟨hc.succ k hk, hover k hk⟩, core_fatal _ _ B data j hj s m hc hb⟩
  · rintro j hj s m _ hb
    exact absurd hb (bodyWith_ne_panic _ _ _ _ _ _ _)
  · rintro s ⟨hc, hover⟩
    refine ⟨data.length, le_refl _, by simp, hc, ?_, ?_⟩
    · intro k hk
      exact hover k (by omega)
    · intro h
      omega

/-! ## The runners and their backends -/

theorem run_eq_finishLoop {N : Type} (env : Env N) (r : Runner) (data : List Data) :
    run env r data = finishLoop (loopOf env r data) := by
  cases r <;> rfl

theorem runner_cases {N : Type} (env : Env N) (r : Runner) :
    (∃ err, r = .AvroTest ∧ env.NewCodec = .error err) ∨
      (∃ B : Backend Unit, IsBackend env r B) ∨ (∃ B : Backend N, IsBackend env r B) := by
  cases r with
  | JsoniterStandardTest =>
    right; left
    refine ⟨jsonBackend "jsoniter config with standard lib" env.jsont, ?_⟩
    constructor <;> first | rfl | (intros; rfl) | simp
    intro h b d
    exact h b d
  | JsonitterConfigFastestTest =>
    right; left
    refine ⟨jsonBackend "jsoniter config fastest" env.jsonf, ?_⟩
    constructor <;> first | rfl | (intros; rfl) | simp
    intro h b d
    exact h b d
  | StandardTest =>
    right; left
    refine ⟨jsonBackend "standard encoding/json" env.json, ?_⟩
    constructor <;> first | rfl | (intros; rfl) | simp
    intro h b d
    exact h b d
  | AvroTest =>
    cases hc : env.NewCodec with
    | error err => exact Or.inl ⟨err, rfl, rfl⟩
    | ok codec =>
      right; right
      refine ⟨avroBackend env codec, ?_⟩
      constructor
      · simp [setupFatal, hc]
      · intro stop data
        simp [loopWith, avroLoopWith, hc]
      · intro data k
        simp [fatalAt, hc]
      · intro data k
        simp [sampleAt, hc]
      · intro data k
        simp [writtenAt, hc]
      · intro _ data k
        simp [writtenAtB, avroBackend]
      · intro h b d
        exact h codec hc b

/-! ## The number of records processed -/

theorem stopCount_le {N : Type} (env : Env N) (n : Nat) : stopCount env n ≤ n := by
  unfold stopCount
  cases h : (List.range n).find? (fun j => overAt env (j + 1)) with
  | none => simp
  | some j =>
    have := (List.find?_range_eq_some.mp h).2.1
    simp at this
    simp
    omega

theorem stopCount_before {N : Type} (env : Env N) (n k : Nat) (hk : k + 1 < stopCount env n) :
    overAt env (k + 1) = false := by
  unfold stopCount at hk
  cases h : (List.range n).find? (fun j => overAt env (j + 1)) with
  | none =>
    rw [h] at hk
    have := List.find?_range_eq_none.mp h k (by simp at hk; omega)
    simpa using this
  | some j =>
    rw [h] at hk
    have := (List.find?_range_eq_some.mp h).2.2 k (by simp at hk; omega)
    simpa using this

theorem stopCount_over {N : Type} (env : Env N) (n : Nat) (hlt : stopCount env n < n) :
    1 ≤ stopCount env n ∧ overAt env (stopCount env n) = true := by
  unfold stopCount at hlt ⊢
  cases h : (List.range n).find? (fun j => overAt env (j + 1)) with
  | none =>
    rw [h] at hlt
    simp at hlt
  | some j =>
    have := (List.find?_range_eq_some.mp h).1
    simp only at this ⊢
    exact ⟨by omega, this⟩

theorem stopCount_unique {N : Type} (env : Env N) (n m : Nat) (hm : m ≤ n)
    (h1 : ∀ k, k + 1 < m → overAt env (k + 1) = false)
    (h2 : m < n → 1 ≤ m ∧ overAt env m = true) : m = stopCount env n := by
  have hle := stopCount_le env n
  rcases Nat.lt_trichotomy m (stopCount env n) with hlt | heq | hgt
  · obtain ⟨hpos, hov⟩ := h2 (by omega)
    have := stopCount_before env n (m - 1) (by omega)
    rw [show m - 1 + 1 = m by omega] at this
    rw [this] at hov
    cases hov
  · exact heq
  · obtain ⟨hpos, hov⟩ := stopCount_over env n (by omega)
    have := h1 (stopCount env n - 1) (by omega)
    rw [show stopCount env n - 1 + 1 = stopCount env n by omega] at this
    rw [this] at hov
    cases hov

theorem stopCount_pos {N : Type} (env : Env N) (n : Nat) (hn : 0 < n) : 0 < stopCount env n := by
  by_cases h : stopCount env n < n
  · exact (stopCount_over env n h).1
  · have := stopCount_le env n
    omega

theorem lt_stopCount {N : Type} (env : Env N) (n k : Nat) (hk : k < n)
    (h : ∀ j, j < k → overAt env (j + 1) = false) : k < stopCount env n := by
  by_contra hge
  have hlt : stopCount env n < n := by omega
  obtain ⟨hpos, hov⟩ := stopCount_over env n hlt
  have := h (stopCount env n - 1) (by omega)
  rw [show stopCount env n - 1 + 1 = stopCount env n by omega] at this
  rw [this] at hov
  cases hov

/-! ## The loop of a runner, as a whole -/

theorem runnerLoop_post {N σ : Type} (env : Env N) (B : Backend σ) (data : List Data) :
    RunnerPost env B data (runnerLoop env B data) := by
  have h := rangeLoop_post env B data
  unfold runnerLoop runnerLoopWith
  simp only []
  cases hr : rangeLoop
      (bodyWith (stopTest env.now env.timer (env.now 0) data.length) env.now B) 0 data
      (initState B.System, B.init) with
  | ok p =>
    obtain ⟨s, rest⟩ := p
    rw [hr] at h
    obtain ⟨m, hm, hrest, hc, h1, h2⟩ := h
    have hm' := stopCount_unique env data.length m hm h1 h2
    subst hrest
    simp only [RunnerPost]
    rw [← hm']
    exact ⟨s, hc, rfl⟩
  | fatal msg =>
    rw [hr] at h
    obtain ⟨k, hk, hbefore, hfat⟩ := h
    exact ⟨k, lt_stopCount env data.length k hk (fun j hj => (hbefore j hj).2),
      fun j hj => (hbefore j hj).1, hfat⟩
  | panic msg =>
    rw [hr] at h
    exact h.elim

theorem runnerLoop_fatal_iff {N σ : Type} (env : Env N) (B : Backend σ) (data : List Data)
    (msg : String) :
    runnerLoop env B data = .fatal msg ↔
      ∃ k, k < stopCount env data.length ∧ (∀ j, j < k → fatalAtB B data j = none) ∧
        fatalAtB B data k = some msg := by
  have h := runnerLoop_post env B data
  constructor
  · intro hf
    rw [hf] at h
    exact h
  · rintro ⟨k, hk, hbefore, hfat⟩
    cases hr : runnerLoop env B data with
    | ok st =>
      rw [hr] at h
      obtain ⟨s, hc, _⟩ := h
      have := hc.succ k hk
      rw [this] at hfat
      cases hfat
    | fatal msg' =>
      rw [hr] at h
      obtain ⟨k', hk', hbefore', hfat'⟩ := h
      rcases Nat.lt_trichotomy k k' with hlt | heq | hgt
      · have := hbefore' k hlt
        rw [this] at hfat
        cases hfat
      · subst heq
        rw [hfat] at hfat'
        injection hfat' with h'
        rw [h']
      · have := hbefore k' hgt
        rw [this] at hfat'
        cases hfat'
    | panic msg' =>
      rw [hr] at h
      exact h.elim

theorem runnerLoop_ok {N σ : Type} (env : Env N) (B : Backend σ) (data : List Data)
    (hok : ∀ k, k < stopCount env data.length → fatalAtB B data k = none) :
    ∃ st, runnerLoop env B data = .ok st ∧ RunnerPost env B data (.ok st) := by
  have h := runnerLoop_post env B data
  cases hr : runnerLoop env B data with
  | ok st =>
    rw [hr] at h
    exact ⟨st, rfl, h⟩
  | fatal msg =>
    rw [hr] at h
    obtain ⟨k, hk, _, hfat⟩ := h
    rw [hok k hk] at hfat
    cases hfat
  | panic msg =>
    rw [hr] at h
    exact h.elim

/-! ## The passes of a loop that ran to its end -/

theorem core_samples_d {σ : Type} (now : Nat → Int) (B : Backend σ) (data : List Data) (m : Nat)
    (s : LoopState × σ) (hc : Core now B data m s) (hm : m ≤ data.length) :
    s.1.samples.map (fun x => x.d) = data.take m := by
  apply List.ext_getElem?
  intro k
  by_cases hk : k < m
  · have hkn : k < data.length := by omega
    rw [List.getElem?_map, hc.samples k hk, List.getElem?_take_of_lt hk]
    simp [sampleAtB, List.getElem?_eq_getElem hkn]
  · rw [List.getElem?_eq_none (by simp [hc.nsamples]; omega),
      List.getElem?_eq_none (by simp; omega)]

theorem core_samples_i {σ : Type} (now : Nat → Int) (B : Backend σ) (data : List Data) (m : Nat)
    (s : LoopState × σ) (hc : Core now B data m s) (hm : m ≤ data.length) :
    s.1.samples.map (fun x => x.i) = List.range m := by
  apply List.ext_getElem?
  intro k
  by_cases hk : k < m
  · have hkn : k < data.length := by omega
    rw [List.getElem?_map, hc.samples k hk, List.getElem?_range hk]
    simp [sampleAtB, List.getElem?_eq_getElem hkn]
  · rw [List.getElem?_eq_none (by simp [hc.nsamples]; omega),
      List.getElem?_eq_none (by simp; omega)]

theorem core_decoded {σ : Type} (now : Nat → Int) (B : Backend σ) (data : List Data) (m : Nat)
    (s : LoopState × σ) (hc : Core now B data m s) :
    ∀ x ∈ s.1.samples, x.decoded = x.encoded := by
  intro x hx
  obtain ⟨k, hk, hxk⟩ := List.getElem_of_mem hx
  have hkm : k < m := by rw [← hc.nsamples]; exact hk
  have h := hc.samples k hkm
  rw [List.getElem?_eq_getElem hk, hxk] at h
  unfold sampleAtB at h
  cases hd : data[k]? with
  | none =>
    rw [hd] at h
    cases h
  | some d =>
    rw [hd] at h
    simp only [Option.map_some', Option.some.injEq] at h
    rw [h]

theorem overAt_false_iff {N : Type} (env : Env N) (k : Nat) :
    overAt env k = false ↔ elapsedAfter env k ≤ env.timer := by
  simp [overAt]

theorem overAt_true_iff {N : Type} (env : Env N) (k : Nat) :
    overAt env k = true ↔ elapsedAfter env k > env.timer := by
  simp [overAt]

theorem stopCount_spec {N : Type} (env : Env N) (n : Nat) :
    stopCount env n ≤ n ∧
      (∀ k, 1 ≤ k → k < stopCount env n → elapsedAfter env k ≤ env.timer) ∧
      (stopCount env n < n →
        1 ≤ stopCount env n ∧ elapsedAfter env (stopCount env n) > env.timer) := by
  refine ⟨stopCount_le env n, ?_, ?_⟩
  · intro k hk hlt
    have := stopCount_before env n (k - 1) (by omega)
    rw [show k - 1 + 1 = k by omega] at this
    exact (overAt_false_iff env k).mp this
  · intro hlt
    obtain ⟨h1, h2⟩ := stopCount_over env n hlt
    exact ⟨h1, (overAt_true_iff env _).mp h2⟩

theorem loop_ok {N : Type} (env : Env N) (r : Runner) (data : List Data)
    (hsetup : setupFatal env r = none)
    (hok : ∀ k, k < stopCount env data.length → fatalAt env r data k = none) :
    ∃ st, loopOf env r data = .ok st ∧
      ∃ (σ : Type) (B : Backend σ) (s : LoopState × σ), IsBackend env r B ∧
        Core env.now B data (stopCount env data.length) s ∧
        st = { s.1 with records := s.1.records ++ data.drop (stopCount env data.length) } := by
  have key : ∀ (σ : Type) (B : Backend σ), IsBackend env r B →
      ∃ st, loopOf env r data = .ok st ∧
        ∃ (σ : Type) (B : Backend σ) (s : LoopState × σ), IsBackend env r B ∧
          Core env.now B data (stopCount env data.length) s ∧
          st = { s.1 with
            records := s.1.records ++ data.drop (stopCount env data.length) } := by
    intro σ B hB
    obtain ⟨st, hst, s, hcore, hs⟩ :=
      runnerLoop_ok env B data (fun k hk => by rw [← hB.fatal]; exact hok k hk)
    refine ⟨st, ?_, σ, B, s, hB, hcore, hs⟩
    unfold loopOf
    rw [hB.loop]
    exact hst
  rcases runner_cases env r with ⟨err, hr, hc⟩ | ⟨B, hB⟩ | ⟨B, hB⟩
  · subst hr
    simp [setupFatal, hc] at hsetup
  · exact key _ B hB
  · exact key _ B hB

theorem finish_ok {c : Duration} {stat s : Stats} (h : finish c stat = .ok s) :
    wholeSeconds stat.MarshalAll ≠ 0 ∧ wholeSeconds stat.UnMarshalAll ≠ 0 ∧
      s = { stat with
        Records := c
        MarshalOpS := Int.tdiv c (wholeSeconds stat.MarshalAll)
        UnMarshalOpS := Int.tdiv c (wholeSeconds stat.UnMarshalAll) } := by
  unfold finish at h
  by_cases h1 : wholeSeconds stat.MarshalAll = 0
  · simp [h1] at h
  · by_cases h2 : wholeSeconds stat.UnMarshalAll = 0
    · simp [h1, h2] at h
    · simp only [h1, h2, if_false] at h
      injection h with h
      exact ⟨h1, h2, h.symm⟩

theorem finishLoop_ok {res : Result LoopState} {report : Report}
    (h : finishLoop res = .ok report) :
    ∃ st, res = .ok st ∧ finish st.c st.stat = .ok report.stat ∧ report.data = st.records := by
  cases res with
  | ok st =>
    refine ⟨st, rfl, ?_⟩
    simp only [finishLoop] at h
    cases hf : finish st.c st.stat with
    | ok stat =>
      rw [hf] at h
      injection h with h
      subst h
      exact ⟨rfl, rfl⟩
    | fatal m =>
      rw [hf] at h
      cases h
    | panic m =>
      rw [hf] at h
      cases h
  | fatal m => cases h
  | panic m => cases h

theorem loop_ok_inv {N : Type} (env : Env N) (r : Runner) (data : List Data) (st : LoopState)
    (hst : loopOf env r data = .ok st) :
    ∃ (σ : Type) (B : Backend σ) (s : LoopState × σ), IsBackend env r B ∧
      Core env.now B data (stopCount env data.length) s ∧
      st = { s.1 with records := s.1.records ++ data.drop (stopCount env data.length) } := by
  have key : ∀ (σ : Type) (B : Backend σ), IsBackend env r B →
      ∃ (σ : Type) (B : Backend σ) (s : LoopState × σ), IsBackend env r B ∧
        Core env.now B data (stopCount env data.length) s ∧
        st = { s.1 with
          records := s.1.records ++ data.drop (stopCount env data.length) } := by
    intro σ B hB
    have h := runnerLoop_post env B data
    unfold loopOf at hst
    rw [hB.loop] at hst
    unfold runnerLoop at h
    rw [hst] at h
    obtain ⟨s, hcore, hs⟩ := h
    exact ⟨σ, B, s, hB, hcore, hs⟩
  rcases runner_cases env r with ⟨err, hr, hc⟩ | ⟨B, hB⟩ | ⟨B, hB⟩
  · subst hr
    simp [loopOf, loopWith, avroLoopWith, hc] at hst
  · exact key _ B hB
  · exact key _ B hB

theorem rangeLoop_congr {S : Type} (body body' : Nat → Data → S → Result (S × Bool))
    (len : Nat) (h : ∀ j d s, j < len → body j d s = body' j d s) :
    ∀ (rest : List Data) (i : Nat) (s : S), i + rest.length ≤ len →
      rangeLoop body i rest s = rangeLoop body' i rest s := by
  intro rest
  induction rest with
  | nil =>
    intro i s _
    rfl
  | cons d rest ih =>
    intro i s hi
    simp only [List.length_cons] at hi
    unfold rangeLoop
    rw [h i d s (by omega)]
    cases body' i d s with
    | ok p =>
      obtain ⟨s', b⟩ := p
      cases b with
      | true => rfl
      | false => exact ih (i + 1) s' (by omega)
    | fatal m => rfl
    | panic m => rfl

theorem stopTest_eq_timeOnly (now : Nat → Int) (budget : Duration) (start : Int)
    (len i tick : Nat) (h : i < len) :
    stopTest now budget start len i tick = stopTestTimeOnly now budget start len i tick := by
  rw [stopTest_of_lt _ _ _ _ _ _ h]
  rfl

theorem bodyWith_congr {σ : Type} (stop stop' : Nat → Nat → Bool × Nat) (now : Nat → Int)
    (B : Backend σ) (i : Nat) (d : Data) (s : LoopState × σ)
    (h : ∀ tick, stop i tick = stop' i tick) :
    bodyWith stop now B i d s = bodyWith stop' now B i d s := by
  unfold bodyWith
  simp only [h]

theorem runnerLoopWith_timeOnly {N σ : Type} (env : Env N) (B : Backend σ) (data : List Data) :
    runnerLoopWith stopTest env B data = runnerLoopWith stopTestTimeOnly env B data := by
  unfold runnerLoopWith
  simp only []
  rw [rangeLoop_congr _
    (bodyWith (stopTestTimeOnly env.now env.timer (env.now 0) data.length) env.now B)
    data.length ?_ data 0 _ (by simp)]
  intro j d s hj
  exact bodyWith_congr _ _ _ _ _ _ _ (fun tick => stopTest_eq_timeOnly _ _ _ _ _ tick hj)

theorem finishLoop_fatal_iff (res : Result LoopState) (msg : String) :
    finishLoop res = .fatal msg ↔ res = .fatal msg := by
  cases res with
  | ok st =>
    simp only [finishLoop]
    unfold finish
    by_cases h1 : wholeSeconds st.stat.MarshalAll = 0
    · simp [h1]
    · by_cases h2 : wholeSeconds st.stat.UnMarshalAll = 0
      · simp [h1, h2]
      · simp [h1, h2]
  | fatal m => simp [finishLoop]
  | panic m => simp [finishLoop]

theorem fatalAtB_zero_of_decode_fails {σ : Type} (B : Backend σ) (data : List Data)
    (hne : data ≠ []) (hdec : ∀ b d, (B.decode b d).2 ≠ none) :
    ∃ msg, fatalAtB B data 0 = some msg := by
  cases data with
  | nil => exact absurd rfl hne
  | cons d rest =>
    simp only [fatalAtB, List.getElem?_cons_zero]
    cases he : (B.encode d (locAt B (d :: rest) 0)).2 with
    | some err => exact ⟨_, rfl⟩
    | none =>
      cases hd : (B.decode (B.encode d (locAt B (d :: rest) 0)).1 d).2 with
      | some err => exact ⟨_, rfl⟩
      | none => exact absurd hd (hdec _ _)

theorem records_of_loop {σ : Type} (now : Nat → Int) (B : Backend σ) (data : List Data) (m : Nat)
    (s : LoopState × σ) (hc : Core now B data m s) (hm : m ≤ data.length) :
    (s.1.records ++ data.drop m).length = data.length ∧
      (∀ k, k < m → (s.1.records ++ data.drop m)[k]? = writtenAtB B data k) ∧
      (∀ k, m ≤ k → (s.1.records ++ data.drop m)[k]? = data[k]?) := by
  refine ⟨?_, ?_, ?_⟩
  · simp [hc.nrecords]
    omega
  · intro k hk
    rw [List.getElem?_append_left (by rw [hc.nrecords]; exact hk)]
    exact hc.records k hk
  · intro k hk
    rw [List.getElem?_append_right (by rw [hc.nrecords]; exact hk), hc.nrecords,
      List.getElem?_drop]
    congr 1
    omega

theorem wholeSeconds_of_nonneg (d : Int) (h : 0 ≤ d) : wholeSeconds d = d / Second := by
  unfold wholeSeconds
  exact Int.tdiv_eq_ediv h (by decide)

theorem wholeSeconds_eq_zero_iff (d : Int) (h : 0 ≤ d) :
    wholeSeconds d = 0 ↔ d < Second := by
  rw [wholeSeconds_of_nonneg d h]
  unfold Second
  omega

theorem second_le_of_wholeSeconds_ne_zero (d : Int) (h : 0 < d)
    (hw : wholeSeconds d ≠ 0) : Second ≤ d ∧ 0 ≤ d / Second := by
  rw [wholeSeconds_of_nonneg d (le_of_lt h)] at hw
  unfold Second at hw
  show (1000000000 : Int) ≤ d ∧ (0 : Int) ≤ d / (1000000000 : Int)
  omega

theorem run_ok_inv {N : Type} (env : Env N) (r : Runner) (data : List Data) (report : Report)
    (h : run env r data = .ok report) :
    ∃ st, loopOf env r data = .ok st ∧ report.data = st.records ∧
      wholeSeconds st.stat.MarshalAll ≠ 0 ∧ wholeSeconds st.stat.UnMarshalAll ≠ 0 ∧
      report.stat = { st.stat with
        Records := st.c
        MarshalOpS := Int.tdiv st.c (wholeSeconds st.stat.MarshalAll)
        UnMarshalOpS := Int.tdiv st.c (wholeSeconds st.stat.UnMarshalAll) } ∧
      st.c = (stopCount env data.length : Int) + 1 ∧
      (0 < stopCount env data.length →
        st.stat.MarshalAvg = Int.tdiv st.stat.MarshalAll st.c ∧
        st.stat.UnMarshalAvg = Int.tdiv st.stat.UnMarshalAll st.c) := by
  rw [run_eq_finishLoop] at h
  obtain ⟨st, hst, hfin, hdata⟩ := finishLoop_ok h
  obtain ⟨hm, hu, hstat⟩ := finish_ok hfin
  obtain ⟨σ, B, s, _, hcore, hs⟩ := loop_ok_inv env r data st hst
  refine ⟨st, hst, hdata, hm, hu, hstat, ?_, ?_⟩
  · rw [hs]
    exact hcore.c
  · intro hpos
    rw [hs]
    exact ⟨hcore.marshalAvg hpos, hcore.unMarshalAvg hpos⟩

/-- The counter `c` starts at `time.Nanosecond` and is incremented before each
record: the `Records` a run reports is one more than the number of records it
processed. -/
theorem records_eq_processed_succ {N : Type} (env : Env N) (r : Runner) (data : List Data)
    (report : Report) (h : run env r data = .ok report) :
    report.stat.Records = (stopCount env data.length : Int) + 1 := by
  obtain ⟨st, _, _, _, _, hstat, hc, _⟩ := run_ok_inv env r data report h
  rw [hstat]
  exact hc

/-- The averages a run reports are the cumulative durations divided by `c`, one
more than the number of records processed. -/
theorem averages_divide_by_succ {N : Type} (env : Env N) (r : Runner) (data : List Data)
    (report : Report) (h : run env r data = .ok report)
    (hpos : 0 < stopCount env data.length) :
    report.stat.MarshalAvg =
        Int.tdiv report.stat.MarshalAll ((stopCount env data.length : Int) + 1) ∧
      report.stat.UnMarshalAvg =
        Int.tdiv report.stat.UnMarshalAll ((stopCount env data.length : Int) + 1) := by
  obtain ⟨st, _, _, _, _, hstat, hc, havg⟩ := run_ok_inv env r data report h
  obtain ⟨h1, h2⟩ := havg hpos
  rw [hstat, ← hc]
  exact ⟨h1, h2⟩

/-! ## The claims -/

/-- C8.  A runner whose codec was built and whose encode and decode calls all
succeed processes the records in their original order, each once, and the
number it processes is `stopCount`: the length of the collection, or the first
`k` from 1 for which the time elapsed after the `k`-th record exceeds the
budget, whichever is less. -/
theorem processes_records_until_budget {N : Type} (env : Env N) (r : Runner) (data : List Data)
    (hsetup : setupFatal env r = none)
    (hok : ∀ k, k < stopCount env data.length → fatalAt env r data k = none) :
    ∃ st, loopOf env r data = .ok st ∧
      st.samples.map (fun x => x.d) = data.take (stopCount env data.length) ∧
      st.samples.map (fun x => x.i) = List.range (stopCount env data.length) ∧
      stopCount env data.length ≤ data.length ∧
      (∀ k, 1 ≤ k → k < stopCount env data.length → elapsedAfter env k ≤ env.timer) ∧
      (stopCount env data.length < data.length →
        1 ≤ stopCount env data.length ∧
          elapsedAfter env (stopCount env data.length) > env.timer) := by
  have hspec := stopCount_spec env data.length
  obtain ⟨st, hst, σ, B, s, _, hcore, hs⟩ := loop_ok env r data hsetup hok
  refine ⟨st, hst, ?_, ?_, hspec⟩
  · rw [hs]
    exact core_samples_d _ B data _ s hcore hspec.1
  · rw [hs]
    exact core_samples_i _ B data _ s hcore hspec.1

/-- C8, at a sample input: with a clock that advances by ten seconds at each
reading, the budget of two minutes is exceeded after the third record, and
`StandardTest` processes three of five records. -/
theorem processes_records_until_budget_witness :
    setupFatal (steadyEnv (10 * Second)) .StandardTest = none ∧
    (∀ k, k < stopCount (steadyEnv (10 * Second)) fiveRecords.length →
      fatalAt (steadyEnv (10 * Second)) .StandardTest fiveRecords k = none) ∧
    ∃ st, loopOf (steadyEnv (10 * Second)) .StandardTest fiveRecords = .ok st ∧
      st.samples.map (fun x => x.d) =
        fiveRecords.take (stopCount (steadyEnv (10 * Second)) fiveRecords.length) ∧
      st.samples.map (fun x => x.i) =
        List.range (stopCount (steadyEnv (10 * Second)) fiveRecords.length) ∧
      stopCount (steadyEnv (10 * Second)) fiveRecords.length ≤ fiveRecords.length ∧
      (∀ k, 1 ≤ k → k < stopCount (steadyEnv (10 * Second)) fiveRecords.length →
        elapsedAfter (steadyEnv (10 * Second)) k ≤ (steadyEnv (10 * Second)).timer) ∧
      (stopCount (steadyEnv (10 * Second)) fiveRecords.length < fiveRecords.length →
        1 ≤ stopCount (steadyEnv (10 * Second)) fiveRecords.length ∧
          elapsedAfter (steadyEnv (10 * Second))
            (stopCount (steadyEnv (10 * Second)) fiveRecords.length) >
            (steadyEnv (10 * Second)).timer) :=
  ⟨by rfl, by decide,
    processes_records_until_budget (steadyEnv (10 * Second)) .StandardTest fiveRecords (by rfl)
      (by decide)⟩

/-- C9.  For a runner whose codec was built and whose encode and decode calls
all succeed, the loop makes one pass for each processed record, the pass for
the record of index `k` being `sampleAt`: the encode output and the two
measured durations; each decode is handed the bytes of the encode of its pass;
`DataSize`, `MarshalAll` and `UnMarshalAll` are the sums over the passes of the
byte lengths and of the two durations, and the finalisation leaves them as they
are. -/
theorem totals_are_sums_of_samples {N : Type} (env : Env N) (r : Runner) (data : List Data)
    (hsetup : setupFatal env r = none)
    (hok : ∀ k, k < stopCount env data.length → fatalAt env r data k = none) :
    ∃ st, loopOf env r data = .ok st ∧
      st.samples.length = stopCount env data.length ∧
      (∀ k, k < stopCount env data.length → st.samples[k]? = sampleAt env r data k) ∧
      st.stat.DataSize = (st.samples.map fun x => (x.encoded.length : Int)).sum ∧
      st.stat.MarshalAll = (st.samples.map fun x => x.marshal).sum ∧
      st.stat.UnMarshalAll = (st.samples.map fun x => x.unmarshal).sum ∧
      (∀ x ∈ st.samples, x.decoded = x.encoded) ∧
      (∀ report, run env r data = .ok report →
        report.stat.DataSize = st.stat.DataSize ∧
        report.stat.MarshalAll = st.stat.MarshalAll ∧
        report.stat.UnMarshalAll = st.stat.UnMarshalAll) := by
  obtain ⟨st, hst, σ, B, s, hB, hcore, hs⟩ := loop_ok env r data hsetup hok
  refine ⟨st, hst, ?_, ?_, ?_, ?_, ?_, ?_, ?_⟩
  · rw [hs]
    exact hcore.nsamples
  · intro k hk
    rw [hs, hB.sample]
    exact hcore.samples k hk
  · rw [hs]
    exact hcore.dataSize
  · rw [hs]
    exact hcore.marshalAll
  · rw [hs]
    exact hcore.unMarshalAll
  · rw [hs]
    exact core_decoded _ B data _ s hcore
  · intro report hrep
    rw [run_eq_finishLoop, hst] at hrep
    obtain ⟨st', hst', hfin, _⟩ := finishLoop_ok hrep
    injection hst' with hst'
    subst hst'
    obtain ⟨_, _, hstat⟩ := finish_ok hfin
    rw [hstat]
    exact ⟨rfl, rfl, rfl⟩

/-- C9, at a sample input: `JsonitterConfigFastestTest` on three records, with
a clock that advances by a second at each reading. -/
theorem totals_are_sums_of_samples_witness :
    setupFatal (steadyEnv Second) .JsonitterConfigFastestTest = none ∧
    (∀ k, k < stopCount (steadyEnv Second) threeRecords.length →
      fatalAt (steadyEnv Second) .JsonitterConfigFastestTest threeRecords k = none) ∧
    ∃ st, loopOf (steadyEnv Second) .JsonitterConfigFastestTest threeRecords = .ok st ∧
      st.samples.length = stopCount (steadyEnv Second) threeRecords.length ∧
      (∀ k, k < stopCount (steadyEnv Second) threeRecords.length →
        st.samples[k]? = sampleAt (steadyEnv Second) .JsonitterConfigFastestTest threeRecords k) ∧
      st.stat.DataSize = (st.samples.map fun x => (x.encoded.length : Int)).sum ∧
      st.stat.MarshalAll = (st.samples.map fun x => x.marshal).sum ∧
      st.stat.UnMarshalAll = (st.samples.map fun x => x.unmarshal).sum ∧
      (∀ x ∈ st.samples, x.decoded = x.encoded) ∧
      (∀ report, run (steadyEnv Second) .JsonitterConfigFastestTest threeRecords = .ok report →
        report.stat.DataSize = st.stat.DataSize ∧
        report.stat.MarshalAll = st.stat.MarshalAll ∧
        report.stat.UnMarshalAll = st.stat.UnMarshalAll) :=
  ⟨by rfl, by decide,
    totals_are_sums_of_samples (steadyEnv Second) .JsonitterConfigFastestTest threeRecords
      (by rfl) (by decide)⟩

/-- C10.  At every index the range loop visits, the index test
`i == len(data)` of the stop condition is false, and the stop condition is the
comparison of the elapsed time with the budget: every runner does the same with
and without the index test, and its loop ends either by exhaustion of the
collection or by a `break` taken when the elapsed time exceeds the budget. -/
theorem index_test_never_stops {N : Type} (env : Env N) (r : Runner) (data : List Data) :
    (∀ i tick, i < data.length →
      stopTest env.now env.timer (env.now 0) data.length i tick =
        stopTestTimeOnly env.now env.timer (env.now 0) data.length i tick) ∧
    loopOf env r data = loopWith stopTestTimeOnly env r data ∧
    (∀ st, loopOf env r data = .ok st →
      (∀ x ∈ st.samples, x.i < data.length ∧ (x.i == data.length) = false) ∧
      (st.samples.length = data.length ∨
        (1 ≤ st.samples.length ∧ elapsedAfter env st.samples.length > env.timer))) := by
  refine ⟨fun i tick h => stopTest_eq_timeOnly _ _ _ _ _ _ h, ?_, ?_⟩
  · unfold loopOf
    cases r with
    | JsoniterStandardTest => exact runnerLoopWith_timeOnly env _ data
    | JsonitterConfigFastestTest => exact runnerLoopWith_timeOnly env _ data
    | StandardTest => exact runnerLoopWith_timeOnly env _ data
    | AvroTest =>
      simp only [loopWith, avroLoopWith]
      cases env.NewCodec with
      | error err => rfl
      | ok codec => exact runnerLoopWith_timeOnly env _ data
  · intro st hst
    obtain ⟨σ, B, s, _, hcore, hs⟩ := loop_ok_inv env r data st hst
    have hspec := stopCount_spec env data.length
    have hlen : st.samples.length = stopCount env data.length := by
      rw [hs]
      exact hcore.nsamples
    refine ⟨?_, ?_⟩
    · intro x hx
      have hi := core_samples_i _ B data _ s hcore hspec.1
      have hx' : x.i ∈ List.range (stopCount env data.length) := by
        rw [← hi]
        rw [hs] at hx
        exact List.mem_map_of_mem _ hx
      have hlt : x.i < data.length := by
        have := List.mem_range.mp hx'
        omega
      exact ⟨hlt, by simp; omega⟩
    · rw [hlen]
      by_cases h : stopCount env data.length < data.length
      · exact Or.inr (hspec.2.2 h)
      · exact Or.inl (by omega)

/-- C6, as amended.  A run ends in a fatal error exactly when `goavro.NewCodec`
fails (`AvroTest`), or some checked call (`Marshal`, `Unmarshal`,
`BinaryFromNative`, `NativeFromBinary`) fails at a record the loop reaches: a
record before which the budget was not exceeded and no checked call failed.  The
line printed is that of the first such failure, no `Stats` is reported, and for
a non-empty collection and a decode that always fails the run is fatal. -/
theorem fatal_iff_checked_call_fails {N : Type} (env : Env N) (r : Runner) (data : List Data) :
    (∀ msg, run env r data = .fatal msg ↔
      (setupFatal env r = some msg ∨
        (setupFatal env r = none ∧ ∃ k, k < stopCount env data.length ∧
          (∀ j, j < k → fatalAt env r data j = none) ∧ fatalAt env r data k = some msg))) ∧
    (∀ msg, run env r data = .fatal msg → ∀ report, run env r data ≠ .ok report) ∧
    (data ≠ [] → decodeAlwaysFails env r → ∃ msg, run env r data = .fatal msg) := by
  have key : ∀ (σ : Type) (B : Backend σ), IsBackend env r B →
      (∀ msg, run env r data = .fatal msg ↔
        (setupFatal env r = some msg ∨
          (setupFatal env r = none ∧ ∃ k, k < stopCount env data.length ∧
            (∀ j, j < k → fatalAt env r data j = none) ∧
            fatalAt env r data k = some msg))) ∧
      (data ≠ [] → decodeAlwaysFails env r → ∃ msg, run env r data = .fatal msg) := by
    intro σ B hB
    have hiff : ∀ msg, run env r data = .fatal msg ↔
        ∃ k, k < stopCount env data.length ∧
          (∀ j, j < k → fatalAt env r data j = none) ∧ fatalAt env r data k = some msg := by
      intro msg
      rw [run_eq_finishLoop, finishLoop_fatal_iff]
      unfold loopOf
      rw [hB.loop]
      have := runnerLoop_fatal_iff env B data msg
      unfold runnerLoop at this
      rw [this]
      simp only [hB.fatal]
    refine ⟨?_, ?_⟩
    · intro msg
      rw [hiff, hB.setup]
      simp
    · intro hne hdec
      obtain ⟨msg, hmsg⟩ := fatalAtB_zero_of_decode_fails B data hne (hB.decode hdec)
      refine ⟨msg, (hiff msg).mpr ⟨0, ?_, ?_, ?_⟩⟩
      · apply stopCount_pos
        cases data with
        | nil => exact absurd rfl hne
        | cons d rest => simp
      · intro j hj
        omega
      · rw [hB.fatal]
        exact hmsg
  have hno : ∀ msg, run env r data = .fatal msg → ∀ report, run env r data ≠ .ok report := by
    intro msg h report h'
    rw [h] at h'
    cases h'
  rcases runner_cases env r with ⟨err, hr, hc⟩ | ⟨B, hB⟩ | ⟨B, hB⟩
  · subst hr
    have hrun : run env .AvroTest data = .fatal (Fatalln ["goavro newcodec error:", err]) := by
      simp [run, AvroTest, avroLoopWith, hc, finishLoop]
    refine ⟨?_, hno, ?_⟩
    · intro msg
      rw [hrun]
      simp only [setupFatal, hc]
      constructor
      · intro h
        injection h with h
        exact Or.inl (by rw [h])
      · rintro (h | ⟨h, _⟩)
        · injection h with h
          rw [h]
        · cases h
    · intro _ _
      exact ⟨_, hrun⟩
  · exact ⟨(key _ B hB).1, hno, (key _ B hB).2⟩
  · exact ⟨(key _ B hB).1, hno, (key _ B hB).2⟩

/-- C6 as stated fails for `AvroTest`: the call `jsont.Marshal(d)` it makes in
its loop for the second record, whose `Amt1` is a NaN, returns an error, which
`b, _ =` discards; the map keeps the fields of the first record, the checked
calls succeed, and the run is not fatal: it reports its `Stats`.  The run of
`StandardTest`, which checks the error, is fatal. -/
theorem discarded_error_is_not_fatal :
    (miniEnv.jsont.Marshal { record 2 with Amt1 := nanBits }).2 =
      some "json: unsupported value: NaN" ∧
    run miniEnv .AvroTest nanRecords =
      .ok { stat := { System := "avro binary", Records := 3, DataSize := 4,
                      MarshalAvg := 666666666, MarshalAll := 2000000000, MarshalOpS := 1,
                      UnMarshalAvg := 666666666, UnMarshalAll := 2000000000,
                      UnMarshalOpS := 1 },
            data := nanRecords } ∧
    (¬ ∃ msg, run miniEnv .AvroTest nanRecords = .fatal msg) ∧
    run miniEnv .StandardTest nanRecords =
      .fatal "error marshal standard encoding/json json: unsupported value: NaN\n" := by
  have hrun : run miniEnv .AvroTest nanRecords =
      .ok { stat := { System := "avro binary", Records := 3, DataSize := 4,
                      MarshalAvg := 666666666, MarshalAll := 2000000000, MarshalOpS := 1,
                      UnMarshalAvg := 666666666, UnMarshalAll := 2000000000,
                      UnMarshalOpS := 1 },
            data := nanRecords } := by decide
  refine ⟨by decide, hrun, ?_, by decide⟩
  rintro ⟨msg, h⟩
  rw [hrun] at h
  cases h

/-- C7, as amended.  A run that returns leaves the records its loop did not
reach as they were, and in each record it processed what the decode call of
that record left there: `AvroTest`, whose decode does not write into the record,
leaves the collection unchanged, and so does a JSON runner when each decode
writes back the field values the record has. -/
theorem records_after_run {N : Type} (env : Env N) (r : Runner) (data : List Data)
    (report : Report) (h : run env r data = .ok report) :
    report.data.length = data.length ∧
    (∀ k, k < stopCount env data.length → report.data[k]? = writtenAt env r data k) ∧
    (∀ k, stopCount env data.length ≤ k → report.data[k]? = data[k]?) ∧
    (r = .AvroTest → report.data = data) ∧
    ((∀ k, k < stopCount env data.length → writtenAt env r data k = data[k]?) →
      report.data = data) := by
  rw [run_eq_finishLoop] at h
  obtain ⟨st, hst, _, hdata⟩ := finishLoop_ok h
  obtain ⟨σ, B, s, hB, hcore, hs⟩ := loop_ok_inv env r data st hst
  obtain ⟨hlen, hwr, hrest⟩ := records_of_loop _ B data _ s hcore (stopCount_le env data.length)
  have hrec : report.data = s.1.records ++ data.drop (stopCount env data.length) := by
    rw [hdata, hs]
  have hsame : (∀ k, k < stopCount env data.length → writtenAt env r data k = data[k]?) →
      report.data = data := by
    intro hw
    apply List.ext_getElem?
    intro k
    rw [hrec]
    by_cases hk : k < stopCount env data.length
    · rw [hwr k hk, ← hB.written, hw k hk]
    · exact hrest k (by omega)
  refine ⟨by rw [hrec]; exact hlen, ?_, ?_, ?_, hsame⟩
  · intro k hk
    rw [hrec, hB.written]
    exact hwr k hk
  · intro k hk
    rw [hrec]
    exact hrest k hk
  · intro hr
    apply hsame
    intro k _
    rw [hB.written]
    exact hB.avro hr data k

/-- C7 as stated fails for a JSON runner: `Unmarshal(b, &d)` decodes into the
record `d` points to, a record of the shared collection, and a decode that
leaves an empty `NameA` there changes the collection. -/
theorem decode_writes_into_collection :
    run clearingEnv .JsoniterStandardTest [record 1] =
      .ok { stat := { System := "jsoniter config with standard lib", Records := 2,
                      DataSize := 3, MarshalAvg := 500000000, MarshalAll := 1000000000,
                      MarshalOpS := 2, UnMarshalAvg := 500000000,
                      UnMarshalAll := 1000000000, UnMarshalOpS := 2 },
            data := [{ record 1 with NameA := "" }] } ∧
    [{ record 1 with NameA := "" }] ≠ [record 1] := by
  refine ⟨by decide, by decide⟩

/-- C7, at a sample input: `StandardTest` on three records, with a decode that
writes back what the records hold. -/
theorem records_after_run_witness :
    run (steadyEnv Second) .StandardTest threeRecords =
      .ok { stat := steadyStats "standard encoding/json", data := threeRecords } ∧
    threeRecords.length = threeRecords.length ∧
    (∀ k, k < stopCount (steadyEnv Second) threeRecords.length →
      threeRecords[k]? = writtenAt (steadyEnv Second) .StandardTest threeRecords k) ∧
    (∀ k, stopCount (steadyEnv Second) threeRecords.length ≤ k →
      threeRecords[k]? = threeRecords[k]?) ∧
    (Runner.StandardTest = .AvroTest → threeRecords = threeRecords) ∧
    ((∀ k, k < stopCount (steadyEnv Second) threeRecords.length →
      writtenAt (steadyEnv Second) .StandardTest threeRecords k = threeRecords[k]?) →
      threeRecords = threeRecords) :=
  ⟨by decide,
    records_after_run (steadyEnv Second) .StandardTest threeRecords
      { stat := steadyStats "standard encoding/json", data := threeRecords } (by decide)⟩

/-- C1, as amended.  For a run that returns, with positive cumulative
durations, both durations are at least a second, and `MarshalOpS` is `Records`
divided by the whole seconds of `MarshalAll`, `UnMarshalOpS` is `Records`
divided by the whole seconds of `UnMarshalAll`. -/
theorem ops_per_whole_second {N : Type} (env : Env N) (r : Runner) (data : List Data)
    (report : Report) (h : run env r data = .ok report)
    (hM : 0 < report.stat.MarshalAll) (hU : 0 < report.stat.UnMarshalAll) :
    Second ≤ report.stat.MarshalAll ∧ Second ≤ report.stat.UnMarshalAll ∧
    report.stat.MarshalOpS = report.stat.Records / (report.stat.MarshalAll / Second) ∧
    report.stat.UnMarshalOpS = report.stat.Records / (report.stat.UnMarshalAll / Second) := by
  obtain ⟨st, _, _, hm, hu, hstat, hc, _⟩ := run_ok_inv env r data report h
  rw [hstat] at hM hU ⊢
  simp only at hM hU ⊢
  have hc0 : (0 : Int) ≤ st.c := by
    rw [hc]
    omega
  have hwm := wholeSeconds_of_nonneg _ (le_of_lt hM)
  have hwu := wholeSeconds_of_nonneg _ (le_of_lt hU)
  obtain ⟨hm1, hm2⟩ := second_le_of_wholeSeconds_ne_zero _ hM hm
  obtain ⟨hu1, hu2⟩ := second_le_of_wholeSeconds_ne_zero _ hU hu
  refine ⟨hm1, hu1, ?_, ?_⟩
  · rw [hwm]
    exact Int.tdiv_eq_ediv hc0 hm2
  · rw [hwu]
    exact Int.tdiv_eq_ediv hc0 hu2

/-- C1, at a sample input: `StandardTest` on three records with a clock that
advances by half a second at each reading. -/
theorem ops_per_whole_second_witness :
    run (steadyEnv 500000000) .StandardTest threeRecords =
      .ok { stat := halfSecondStats, data := threeRecords } ∧
    0 < halfSecondStats.MarshalAll ∧ 0 < halfSecondStats.UnMarshalAll ∧
    Second ≤ halfSecondStats.MarshalAll ∧ Second ≤ halfSecondStats.UnMarshalAll ∧
    halfSecondStats.MarshalOpS =
      halfSecondStats.Records / (halfSecondStats.MarshalAll / Second) ∧
    halfSecondStats.UnMarshalOpS =
      halfSecondStats.Records / (halfSecondStats.UnMarshalAll / Second) :=
  ⟨by decide, by decide, by decide,
    ops_per_whole_second (steadyEnv 500000000) .StandardTest threeRecords
      { stat := halfSecondStats, data := threeRecords } (by decide) (by decide) (by decide)⟩

/-- C1 as stated fails: `StandardTest` processes three records in a cumulative
marshal time of a second and a half, and reports `MarshalOpS = 4`, which is
neither `floor(3 * 10^9 / 1500000000) = 2` nor, with three for the count, three
divided by the whole seconds. -/
theorem ops_not_count_per_elapsed_second :
    run (steadyEnv 500000000) .StandardTest threeRecords =
      .ok { stat := halfSecondStats, data := threeRecords } ∧
    stopCount (steadyEnv 500000000) threeRecords.length = 3 ∧
    0 < halfSecondStats.MarshalAll ∧ 0 < halfSecondStats.UnMarshalAll ∧
    halfSecondStats.MarshalOpS ≠ 3 * 1000000000 / halfSecondStats.MarshalAll ∧
    halfSecondStats.UnMarshalOpS ≠ 3 * 1000000000 / halfSecondStats.UnMarshalAll ∧
    3 / (halfSecondStats.MarshalAll / Second) ≠ 3 * 1000000000 / halfSecondStats.MarshalAll := by
  refine ⟨by decide, by decide, by decide, by decide, by decide, by decide, by decide⟩

/-- C2, as amended.  The finalisation completes exactly when the whole seconds
of both cumulative durations are not zero, which for a non-negative duration
means that it is at least a second; otherwise its division panics.  When it
completes, for a non-negative count and non-negative durations, `MarshalOpS`
and `UnMarshalOpS` are not negative. -/
theorem finish_completes_iff (c : Duration) (stat : Stats) :
    ((∃ s, finish c stat = .ok s) ↔
      wholeSeconds stat.MarshalAll ≠ 0 ∧ wholeSeconds stat.UnMarshalAll ≠ 0) ∧
    ((wholeSeconds stat.MarshalAll = 0 ∨ wholeSeconds stat.UnMarshalAll = 0) →
      finish c stat = .panic divideError) ∧
    (0 ≤ stat.MarshalAll → (wholeSeconds stat.MarshalAll = 0 ↔ stat.MarshalAll < Second)) ∧
    (0 ≤ stat.UnMarshalAll →
      (wholeSeconds stat.UnMarshalAll = 0 ↔ stat.UnMarshalAll < Second)) ∧
    (∀ s, finish c stat = .ok s → 0 ≤ c → 0 ≤ stat.MarshalAll → 0 ≤ stat.UnMarshalAll →
      0 ≤ s.MarshalOpS ∧ 0 ≤ s.UnMarshalOpS) := by
  refine ⟨?_, ?_, wholeSeconds_eq_zero_iff _, wholeSeconds_eq_zero_iff _, ?_⟩
  · constructor
    · rintro ⟨s, hs⟩
      exact ⟨(finish_ok hs).1, (finish_ok hs).2.1⟩
    · rintro ⟨h1, h2⟩
      simp [finish, h1, h2]
  · intro h
    by_cases h1 : wholeSeconds stat.MarshalAll = 0
    · simp [finish, h1]
    · have h2 : wholeSeconds stat.UnMarshalAll = 0 := h.resolve_left h1
      simp [finish, h1, h2]
  · intro s hs hc hM hU
    obtain ⟨_, _, hstat⟩ := finish_ok hs
    rw [hstat]
    have hwm : 0 ≤ wholeSeconds stat.MarshalAll := Int.tdiv_nonneg hM (by decide)
    have hwu : 0 ≤ wholeSeconds stat.UnMarshalAll := Int.tdiv_nonneg hU (by decide)
    exact ⟨Int.tdiv_nonneg hc hwm, Int.tdiv_nonneg hc hwu⟩

/-- C2 as stated fails: the finalisation divides by the whole seconds without
a test for zero.  With cumulative durations of zero, or of a hundred nanoseconds
as in the run of `JsoniterStandardTest` on one record with a clock that advances
by a hundred nanoseconds at each reading, it panics and gives no `Stats`. -/
theorem finish_divides_by_zero :
    finish 1 (initState "standard encoding/json").stat = .panic divideError ∧
    finish 2 { (initState "standard encoding/json").stat with
      MarshalAll := 100, UnMarshalAll := 100 } = .panic divideError ∧
    run (steadyEnv 100) .JsoniterStandardTest [record 1] = .panic divideError := by
  refine ⟨by decide, by decide, by decide⟩

/-- C3: the code at the failing input.  Every runner processes the three
records of `threeRecords`, the budget never exceeded and no call failing, and
hands `PrintStats` a `Stats` with `Records = 4`. -/
theorem records_is_one_more_than_processed (r : Runner) :
    run (steadyEnv Second) r threeRecords = .ok (steadyReport r) ∧
    stopCount (steadyEnv Second) threeRecords.length = 3 ∧
    threeRecords.length = 3 ∧
    (steadyReport r).stat.Records = 4 := by
  cases r <;> exact ⟨by decide, by decide, by decide, by decide⟩

/-- C4: the code at the failing input.  Every runner processes the three
records of `threeRecords` in cumulative durations of three seconds, and reports
averages of three quarters of a second, the durations divided by four: the
difference `MarshalAll - MarshalAvg * 3` is not below three. -/
theorem averages_divide_by_one_more (r : Runner) :
    run (steadyEnv Second) r threeRecords = .ok (steadyReport r) ∧
    stopCount (steadyEnv Second) threeRecords.length = 3 ∧
    (steadyReport r).stat.MarshalAll = 3000000000 ∧
    (steadyReport r).stat.MarshalAvg = 750000000 ∧
    (steadyReport r).stat.UnMarshalAll = 3000000000 ∧
    (steadyReport r).stat.UnMarshalAvg = 750000000 ∧
    (steadyReport r).stat.MarshalAvg ≠ (steadyReport r).stat.MarshalAll / 3 ∧
    ¬ ((steadyReport r).stat.MarshalAll - (steadyReport r).stat.MarshalAvg * 3 < 3) ∧
    ¬ ((steadyReport r).stat.UnMarshalAll - (steadyReport r).stat.UnMarshalAvg * 3 < 3) := by
  cases r <;>
    exact ⟨by decide, by decide, by decide, by decide, by decide, by decide, by decide,
      by decide, by decide⟩

/-- C5, as amended.  A run over the empty collection reports no `Stats`: its
loop makes no pass and leaves `DataSize` and the cumulative and average
durations at zero, and the finalisation divides by the whole seconds of the
cumulative marshal duration, zero, and panics; in `AvroTest`, when the codec
cannot be built, the run is fatal before the loop. -/
theorem empty_run_reports_nothing {N : Type} (env : Env N) (r : Runner) :
    (∀ report, run env r [] ≠ .ok report) ∧
    (setupFatal env r = none →
      run env r [] = .panic divideError ∧
      ∃ st, loopOf env r [] = .ok st ∧ st.samples = [] ∧ st.stat.DataSize = 0 ∧
        st.stat.MarshalAll = 0 ∧ st.stat.MarshalAvg = 0 ∧
        st.stat.UnMarshalAll = 0 ∧ st.stat.UnMarshalAvg = 0) ∧
    (∀ msg, setupFatal env r = some msg → run env r [] = .fatal msg) := by
  have key : ∀ (σ : Type) (B : Backend σ),
      finishLoop (runnerLoopWith stopTest env B []) = .panic divideError ∧
      ∃ st, runnerLoopWith stopTest env B [] = .ok st ∧ st.samples = [] ∧
        st.stat.DataSize = 0 ∧ st.stat.MarshalAll = 0 ∧ st.stat.MarshalAvg = 0 ∧
        st.stat.UnMarshalAll = 0 ∧ st.stat.UnMarshalAvg = 0 := by
    intro σ B
    refine ⟨?_, _, rfl, rfl, rfl, rfl, rfl, rfl, rfl⟩
    simp [runnerLoopWith, rangeLoop, finishLoop, finish, initState, wholeSeconds]
  cases r with
  | JsoniterStandardTest =>
    have h := key _ (jsonBackend "jsoniter config with standard lib" env.jsont)
    have hrun : run env .JsoniterStandardTest [] = .panic divideError := h.1
    refine ⟨?_, fun _ => ⟨hrun, h.2⟩, ?_⟩
    · intro report hr
      rw [hrun] at hr
      cases hr
    · intro msg hm
      simp [setupFatal] at hm
  | JsonitterConfigFastestTest =>
    have h := key _ (jsonBackend "jsoniter config fastest" env.jsonf)
    have hrun : run env .JsonitterConfigFastestTest [] = .panic divideError := h.1
    refine ⟨?_, fun _ => ⟨hrun, h.2⟩, ?_⟩
    · intro report hr
      rw [hrun] at hr
      cases hr
    · intro msg hm
      simp [setupFatal] at hm
  | StandardTest =>
    have h := key _ (jsonBackend "standard encoding/json" env.json)
    have hrun : run env .StandardTest [] = .panic divideError := h.1
    refine ⟨?_, fun _ => ⟨hrun, h.2⟩, ?_⟩
    · intro report hr
      rw [hrun] at hr
      cases hr
    · intro msg hm
      simp [setupFatal] at hm
  | AvroTest =>
    cases hc : env.NewCodec with
    | error err =>
      have hrun : run env .AvroTest [] = .fatal (Fatalln ["goavro newcodec error:", err]) := by
        simp [run, AvroTest, avroLoopWith, hc, finishLoop]
      refine ⟨?_, ?_, ?_⟩
      · intro report hr
        rw [hrun] at hr
        cases hr
      · intro hs
        simp [setupFatal, hc] at hs
      · intro msg hm
        simp only [setupFatal, hc, Option.some.injEq] at hm
        rw [hrun, hm]
    | ok codec =>
      have h := key _ (avroBackend env codec)
      have hloop : loopOf env .AvroTest [] =
          runnerLoopWith stopTest env (avroBackend env codec) [] := by
        simp [loopOf, loopWith, avroLoopWith, hc]
      have hrun : run env .AvroTest [] = .panic divideError := by
        rw [run_eq_finishLoop, hloop]
        exact h.1
      refine ⟨?_, fun _ => ⟨hrun, ?_⟩, ?_⟩
      · intro report hr
        rw [hrun] at hr
        cases hr
      · rw [hloop]
        exact h.2
      · intro msg hm
        simp [setupFatal, hc] at hm

/-- C5 as stated fails: the run of each runner over the empty collection, in an
environment whose calls all succeed, ends in the panic of a division by zero and
produces no `Stats`. -/
theorem empty_run_panics :
    run (steadyEnv Second) .JsoniterStandardTest [] = .panic divideError ∧
    run (steadyEnv Second) .JsonitterConfigFastestTest [] = .panic divideError ∧
    run (steadyEnv Second) .StandardTest [] = .panic divideError ∧
    run (steadyEnv Second) .AvroTest [] = .panic divideError ∧
    ¬ ∃ report, run (steadyEnv Second) .StandardTest [] = .ok report := by
  have h : run (steadyEnv Second) .StandardTest [] = .panic divideError := by decide
  refine ⟨by decide, by decide, h, by decide, ?_⟩
  rintro ⟨report, hr⟩
  rw [h] at hr
  cases hr

end Serialize
